import Mathlib

/-!
Verification development for the bose crawler repository.

The definitions below are a shallow embedding of the functions in
src/scripts/crawler.py (and, where explicitly noted, the variant functions in
src/scripts/crawler_backup.py).  Strings are modelled as List Char, Python
sets as insertion-ordered duplicate-free lists, the CSV output file as an
Option (header-row count, list of data rows), and network or library effects
as explicit inputs.  Each claim theorem states one property of the embedded
code and is proved against these definitions.
-/

namespace Bose

/-! ### Sink: OptimizedWaveScraper.save_results and the flush schedule of run
    (src/scripts/crawler.py lines 347-366 and 396-444).

    The in-memory buffer models self.results.  The output file models the
    CSV on disk: none means the file does not exist, some (h, rows) means a
    file holding h header rows followed by the data rows in order.
    pandas to_csv with header writes one header row; with mode append and
    header=False it appends the rows only. -/

structure SinkState (α : Type) where
  buffer : List α
  file : Option (Nat × List α)
deriving Repr, DecidableEq

/-- Embedding of save_results (crawler.py 347-366).  The body is guarded by
    `if self.results:`; the incremental branch appends to an existing file
    without a header (mode append, header=False) or creates the file with one
    header row, then clears the buffer; the non-incremental branch rewrites
    the whole file with one header row from the current buffer and does not
    clear the buffer. -/
def saveResults {α : Type} (incremental : Bool) (st : SinkState α) : SinkState α :=
  if st.buffer.isEmpty then st
  else if incremental then
    match st.file with
    | some (h, rows) => ⟨[], some (h, rows ++ st.buffer)⟩
    | none => ⟨[], some (1, st.buffer)⟩
  else
    ⟨st.buffer, some (1, st.buffer)⟩

/-- Embedding of save_results in an execution where the pandas to_csv call may
    raise (disk full, permission error).  The except-branch of save_results
    (crawler.py 365-366) swallows the exception, so the buffer-clearing line
    that follows the write is never reached: the buffer is returned unchanged,
    and the on-disk state is whatever the failed write left behind
    (fileOnFail).  When the write completes (writeOk = true) the behaviour is
    that of saveResults. -/
def saveResultsAttempt {α : Type} (incremental writeOk : Bool)
    (fileOnFail : Option (Nat × List α)) (st : SinkState α) : SinkState α :=
  if st.buffer.isEmpty then st
  else if writeOk then saveResults incremental st
  else ⟨st.buffer, fileOnFail⟩

/-- Embedding of one iteration of the batch loop of run (crawler.py 410-421):
    process_urls_batch extends self.results with the records the batch
    produced, and then `if self.results: self.save_results(incremental=True)`
    performs the incremental flush opportunity of that batch. -/
def batchStep {α : Type} (st : SinkState α) (batch : List α) : SinkState α :=
  let st1 : SinkState α := ⟨st.buffer ++ batch, st.file⟩
  if st1.buffer.isEmpty then st1 else saveResults true st1

/-- Embedding of the flush schedule of one complete run (crawler.py 396-432):
    the batches are processed strictly in order, each followed by its
    incremental flush opportunity, and after the loop the final
    self.save_results() is executed. -/
def runFlushes {α : Type} (batches : List (List α)) (st : SinkState α) : SinkState α :=
  saveResults false (batches.foldl batchStep st)

/-! ### Scheduler batching (crawler.py 410-413): the loop
    `for i in range(0, total_urls, self.batch_size)` slices
    urls[i:i+batch_size]; successive slices are exactly take/drop blocks. -/

/-- Embedding of the batch partition of run (crawler.py 410-411).  For B = 0
    the Python range raises ValueError before producing any batch; the run is
    only ever started with a positive batch size (default 50), and the
    embedding returns no batches in that unreachable case. -/
def makeBatches {α : Type} (B : Nat) (l : List α) : List (List α) :=
  if h : l.isEmpty ∨ B = 0 then []
  else l.take B :: makeBatches B (l.drop B)
termination_by l.length
decreasing_by
  simp only [not_or, List.isEmpty_iff] at h
  have : 0 < l.length := List.length_pos.mpr h.1
  simp [List.length_drop]
  omega

/-! ### Python text primitives shared by the parsing functions. -/

/-- Characters treated as whitespace by the Python str.strip and regex
    whitespace class on the text alphabet that occurs in this code base
    (ASCII whitespace plus the ideographic space). -/
def isPySpace (c : Char) : Bool :=
  c = ' ' || c = '\t' || c = '\n' || c = '\r' || c = '\x0b' || c = '\x0c' || c = '　'

/-- Embedding of Python str.strip(): drop whitespace from both ends. -/
def pyStrip (l : List Char) : List Char :=
  ((l.dropWhile isPySpace).reverse.dropWhile isPySpace).reverse

/-- Embedding of Python str.lower() on one character, for the alphabet that
    occurs in this code base: ASCII uppercase letters map to lowercase, every
    other character (digits, punctuation, CJK) is unchanged. -/
def pyToLower (c : Char) : Char :=
  if 65 ≤ c.toNat ∧ c.toNat ≤ 90 then Char.ofNat (c.toNat + 32) else c

/-- Embedding of Python str.lower(). -/
def pyLower (l : List Char) : List Char := l.map pyToLower

/-- Embedding of the Python substring test `needle in haystack`. -/
def isSubstrB (needle : List Char) : List Char → Bool
  | [] => needle.isEmpty
  | c :: t => needle.isPrefixOf (c :: t) || isSubstrB needle t

/-- Embedding of Python text.split(chr): maximal separator-free segments,
    with empty segments kept, as used with a newline separator by
    extract_data_with_beautifulsoup and extract_period_context. -/
def splitOnNl : List Char → List (List Char)
  | [] => [[]]
  | c :: rest =>
    if c = '\n' then [] :: splitOnNl rest
    else
      match splitOnNl rest with
      | [] => [[c]]
      | w :: ws => (c :: w) :: ws

/-- Embedding of re.sub removing every markup tag, pattern `<` then a run of
    characters other than `>` then `>`: on a `<` that some later `>` closes,
    the scan drops every character through that first `>` (true = inside a
    tag); a `<` that is never followed by a closing `>` matches nothing and
    is kept, as are all characters outside tags. -/
def stripTagsAux : Bool → List Char → List Char
  | _, [] => []
  | true, c :: rest =>
    if c = '>' then stripTagsAux false rest else stripTagsAux true rest
  | false, c :: rest =>
    if c = '<' && rest.contains '>' then stripTagsAux true rest
    else c :: stripTagsAux false rest

/-- Tag removal starting outside any tag. -/
def stripTags (l : List Char) : List Char := stripTagsAux false l

/-- Embedding of a Python set.add on a set represented as an
    insertion-ordered duplicate-free list. -/
def addToSet (x : List Char) (s : List (List Char)) : List (List Char) :=
  if x ∈ s then s else s ++ [x]

/-! ### Quality Gate: is_valid_content and has_excessive_repetition
    (crawler.py 281-323). -/

/-- Embedding of the ad_keywords list of is_valid_content (crawler.py
    288-295), in source order.  Note that the entries QQ and http are written
    exactly as in the source: QQ is uppercase even though the window is
    lowercased before the comparison. -/
def adKeywords : List (List Char) :=
  (["广告", "推广", "联系", "微信", "QQ", "电话", "手机", "网址", "http",
    "加群", "客服", "咨询", "代理", "招商", "合作", "投资", "理财",
    "贷款", "借钱", "赚钱", "兼职", "招聘", "工作", "职位",
    "免费", "优惠", "折扣", "特价", "促销", "活动", "礼品",
    "注册", "开户", "充值", "提现", "转账", "支付", "银行",
    "点击", "下载", "安装", "扫码", "关注", "订阅"] : List String).map String.toList

/-- Embedding of the advertising loop of is_valid_content (crawler.py
    297-300): the window is lowercased once, and each lexicon entry is tested
    literally as a substring of the lowercased window. -/
def containsAd (context : List Char) : Bool :=
  adKeywords.any (fun w => isSubstrB w (pyLower context))

/-- Embedding of the scanning loop of has_excessive_repetition (crawler.py
    317-321): some position starts six equal copies of a non-space
    character. -/
def hasSixRun : List Char → Bool
  | a :: b :: c :: d :: e :: f :: rest =>
    ((a != ' ') && (b == a) && (c == a) && (d == a) && (e == a) && (f == a))
      || hasSixRun (b :: c :: d :: e :: f :: rest)
  | _ => false

/-- Embedding of has_excessive_repetition (crawler.py 312-323), including its
    guard that returns false outright for texts shorter than 10
    characters. -/
def hasExcessiveRepetition (t : List Char) : Bool :=
  if t.length < 10 then false else hasSixRun t

/-- Embedding of is_valid_content (crawler.py 281-310): the four
    short-circuiting checks in source order.  The colors argument is accepted
    and ignored exactly as in the source. -/
def isValidContent (context : List Char) (keywords : List (List Char))
    (colors : List (List Char)) : Bool :=
  if keywords.isEmpty then false
  else if containsAd context then false
  else if (pyStrip context).length < 20 then false
  else if hasExcessiveRepetition context then false
  else true

/-! ### Field Parser, colors: extract_colors (crawler.py 206-236).
    The three color_patterns (crawler.py 64-68) are unfolded into direct
    left-to-right scanners with the usual leftmost, non-overlapping findall
    semantics; the lazy gap of the third pattern cannot cross a newline. -/

/-- Character class [红绿蓝] of the color patterns. -/
def colorChar (c : Char) : Bool := c == '红' || c == '绿' || c == '蓝'

/-- Embedding of findall for the first color pattern, a color character
    immediately followed by 波; each match consumes both characters. -/
def findallColor1 : List Char → List (List Char)
  | c :: b :: rest =>
    if colorChar c && b == '波' then [c, '波'] :: findallColor1 rest
    else findallColor1 (b :: rest)
  | _ => []

/-- Embedding of findall for the second color pattern, a color character
    with a lookahead for 波; the lookahead consumes nothing, so only the
    color character itself is consumed by a match. -/
def findallColor2 : List Char → List (List Char)
  | c :: b :: rest =>
    if colorChar c && b == '波' then [c] :: findallColor2 (b :: rest)
    else findallColor2 (b :: rest)
  | _ => []

/-- Alternation 推荐, 精选, 必中 opening the third color pattern. -/
def promoPair (a b : Char) : Bool :=
  (a == '推' && b == '荐') || (a == '精' && b == '选') || (a == '必' && b == '中')

/-- Embedding of findall for the third color pattern: one of the promo words
    followed by a shortest newline-free gap and then a color character with
    波.  The scanner is the deterministic unfolding of the regex: seeing a
    promo word arms the search (armed = true); armed, the first color-波 pair
    yields the captured group, while a newline aborts the attempt (every
    later start position before that newline fails the same way, so scanning
    resumes disarmed after the newline). -/
def findallColor3Aux : Bool → List Char → List (List Char)
  | false, a :: b :: rest =>
    if promoPair a b then findallColor3Aux true rest
    else findallColor3Aux false (b :: rest)
  | false, _ => []
  | true, c :: b :: rest2 =>
    if colorChar c && b == '波' then [c, '波'] :: findallColor3Aux false rest2
    else if c == '\n' then findallColor3Aux false (b :: rest2)
    else findallColor3Aux true (b :: rest2)
  | true, _ => []

/-- Findall for the third color pattern starting disarmed. -/
def findallColor3 (l : List Char) : List (List Char) := findallColor3Aux false l

/-- Normalization applied to every color-pattern match (crawler.py 213-217):
    keep matches already ending in 波, append 波 otherwise. -/
def normWave (m : List Char) : List Char :=
  if m.getLast? == some '波' then m else m ++ ['波']

/-- Character class of decorative symbols removed before the single-character
    color scan (crawler.py 221), exactly the characters of the re.sub class,
    including 波 itself. -/
def specialChar (c : Char) : Bool :=
  (['♠', '【', '】', '[', ']', '(', ')', '（', '）', '<', '>', '《', '》', '🐬', '波'] :
    List Char).contains c

/-- Embedding of the color_map dict (crawler.py 227). -/
def colorMap (c : Char) : Option (List Char) :=
  if c == '红' then some ['红', '波']
  else if c == '绿' then some ['绿', '波']
  else if c == '蓝' then some ['蓝', '波']
  else none

/-- Embedding of the full color set built by extract_colors (crawler.py
    208-233) before the final cap: the three pattern scans with normalized
    matches, then the single-character scan over the symbol-stripped text with
    its seen_chars set. -/
def extractColorsSet (context : List Char) : List (List Char) :=
  let s1 := (findallColor1 context).foldl (fun s m => addToSet (normWave m) s) []
  let s2 := (findallColor2 context).foldl (fun s m => addToSet (normWave m) s) s1
  let s3 := (findallColor3 context).foldl (fun s m => addToSet (normWave m) s) s2
  let colorChars := (context.filter (fun c => !(specialChar c))).filter colorChar
  (colorChars.foldl
    (fun (p : List (List Char) × List Char) ch =>
      match colorMap ch with
      | some full => if p.2.contains ch then p else (addToSet full p.1, p.2 ++ [ch])
      | none => p)
    (s3, [])).1

/-- Embedding of extract_colors (crawler.py 206-236): the accumulated set
    capped at three entries by the final list(colors)[:3]. -/
def extractColors (context : List Char) : List (List Char) :=
  (extractColorsSet context).take 3

/-! ### Field Parser, results: extract_results (crawler.py 238-249).
    The three result_patterns (crawler.py 71-75) are unfolded the same way:
    a lazy newline-free group closed by one of the markers 中, 错, 准,
    opened by 开 plus optional colon, by 结果 plus optional colon, or
    unanchored with a greedy newline-free tail. -/

/-- Character class [中错准] closing every result pattern. -/
def isTermCh (c : Char) : Bool := c == '中' || c == '错' || c == '准'

/-- Embedding of findall for the first result pattern: 开, an optional
    full-width or ASCII colon, then the shortest newline-free group ending in
    a marker character.  Seeing 开 arms the scan with an empty group
    accumulator; armed, a marker closes the match, a newline aborts it (every
    start position in between fails against the same newline), and any other
    character joins the group. -/
def findallRes1Aux : Option (List Char) → List Char → List (List Char)
  | none, c :: d :: rest2 =>
    if c == '开' then
      if d == '：' || d == ':' then findallRes1Aux (some []) rest2
      else findallRes1Aux (some []) (d :: rest2)
    else findallRes1Aux none (d :: rest2)
  | none, _ => []
  | some _, [] => []
  | some acc, c :: rest =>
    if isTermCh c then (acc ++ [c]) :: findallRes1Aux none rest
    else if c == '\n' then findallRes1Aux none rest
    else findallRes1Aux (some (acc ++ [c])) rest

/-- Findall for the first result pattern. -/
def findallRes1 (l : List Char) : List (List Char) := findallRes1Aux none l

/-- Embedding of findall for the second result pattern, identical to the
    first with the two-character opener 结果. -/
def findallRes2Aux : Option (List Char) → List Char → List (List Char)
  | none, a :: b :: d :: rest2 =>
    if a == '结' && b == '果' then
      if d == '：' || d == ':' then findallRes2Aux (some []) rest2
      else findallRes2Aux (some []) (d :: rest2)
    else findallRes2Aux none (b :: d :: rest2)
  | none, [a, b] =>
    if a == '结' && b == '果' then findallRes2Aux (some []) ([] : List Char)
    else findallRes2Aux none [b]
  | none, _ => []
  | some _, [] => []
  | some acc, c :: rest =>
    if isTermCh c then (acc ++ [c]) :: findallRes2Aux none rest
    else if c == '\n' then findallRes2Aux none rest
    else findallRes2Aux (some (acc ++ [c])) rest

/-- Findall for the second result pattern. -/
def findallRes2 (l : List Char) : List (List Char) := findallRes2Aux none l

/-- Embedding of findall for the third result pattern, a lazy newline-free
    head ending in a marker followed by a greedy newline-free tail: the
    leftmost match swallows a whole newline-delimited segment whenever the
    segment contains a marker, so the scanner accumulates each segment and
    emits it if a marker was seen. -/
def findallRes3Aux : List Char → Bool → List Char → List (List Char)
  | acc, sawTerm, [] => if sawTerm then [acc] else []
  | acc, sawTerm, c :: rest =>
    if c == '\n' then
      if sawTerm then acc :: findallRes3Aux [] false rest
      else findallRes3Aux [] false rest
    else findallRes3Aux (acc ++ [c]) (sawTerm || isTermCh c) rest

/-- Findall for the third result pattern. -/
def findallRes3 (l : List Char) : List (List Char) := findallRes3Aux [] false l

/-- Markup stripping and trimming applied to every result match
    (crawler.py 245). -/
def cleanResult (m : List Char) : List Char := pyStrip (stripTags m)

/-- Embedding of extract_results (crawler.py 238-249): all matches of the
    three patterns in order, cleaned, kept when non-empty and at most 10
    characters long, collected into a set. -/
def extractResults (context : List Char) : List (List Char) :=
  (findallRes1 context ++ findallRes2 context ++ findallRes3 context).foldl
    (fun s m =>
      let cr := cleanResult m
      if !(cr.isEmpty) && cr.length ≤ 10 then addToSet cr s else s) []

/-! ### Field Parser, keywords: extract_keywords (crawler.py 193-204) with
    the three keyword_patterns (crawler.py 57-61) built over the fixed
    keyword lexicon (crawler.py 49-53). -/

/-- Embedding of the keyword lexicon in source order; the order matters
    because the regex alternation tries the entries left to right. -/
def kwList : List (List Char) :=
  (["两波中特", "双波中特", "精准双波", "必中双波", "双波", "二波",
    "两波必中", "双波推荐", "两波推荐", "双波精选", "两波料",
    "双波料", "两波爆料", "双波爆料", "两波内幕", "双波内幕"] :
    List String).map String.toList

/-- Length of the first lexicon entry matching at the head of the text, the
    way the regex alternation resolves at one position. -/
def matchKwAt (l : List Char) : Option Nat :=
  (kwList.find? (fun k => k.isPrefixOf l)).map List.length

/-- Whether some position of the text starts a lexicon entry. -/
def containsKwB : List Char → Bool
  | [] => false
  | c :: rest => (matchKwAt (c :: rest)).isSome || containsKwB rest

/-- Embedding of findall for the first keyword pattern: a lazy newline-free
    head, a lexicon entry, and a lazy tail that always matches empty, so each
    match runs from the later of the scan position and the last newline up to
    the end of the first lexicon entry found.  The accumulator holds the lazy
    head; every lexicon entry is non-empty, so a match of length n consumes
    the head character plus n - 1 further characters. -/
def kw1Aux : List Char → List Char → List (List Char)
  | _, [] => []
  | acc, c :: rest =>
    match matchKwAt (c :: rest) with
    | some n => (acc ++ c :: rest.take (n - 1)) :: kw1Aux [] (rest.drop (n - 1))
    | none => if c == '\n' then kw1Aux [] rest else kw1Aux (acc ++ [c]) rest
termination_by _ l => l.length
decreasing_by all_goals (simp only [List.length_drop, List.length_cons]; omega)

/-- Findall for the first keyword pattern. -/
def findallKw1 (l : List Char) : List (List Char) := kw1Aux [] l

/-- Embedding of findall for the second keyword pattern: a markup tag, then a
    group of non-tag characters containing a lexicon entry, closed by the
    next tag opener.  The lazy group head, the entry and the lazy group tail
    together always cover the whole tag-free segment after the tag, the
    closing `<` is consumed, and an attempt that fails resumes one character
    further on. -/
def kw2Aux : List Char → List (List Char)
  | [] => []
  | c :: rest =>
    if c == '<' && rest.contains '>' then
      let afterTag := (rest.dropWhile (fun d => d != '>')).tail
      let seg := afterTag.takeWhile (fun d => d != '<')
      let rest2 := afterTag.dropWhile (fun d => d != '<')
      if !rest2.isEmpty && containsKwB seg then seg :: kw2Aux rest2.tail
      else kw2Aux rest
    else kw2Aux rest
termination_by l => l.length
decreasing_by
  all_goals simp only [List.length_tail, List.length_cons]
  all_goals
    first
      | exact Nat.lt_succ_self _
      | exact Nat.lt_succ_of_le
          (le_trans (Nat.sub_le _ _)
            (le_trans (List.dropWhile_suffix _).sublist.length_le
              (le_trans (Nat.le_refl _)
                (le_trans (le_of_eq (List.length_tail _))
                  (le_trans (Nat.sub_le _ _)
                    (List.dropWhile_suffix _).sublist.length_le)))))

/-- Findall for the second keyword pattern. -/
def findallKw2 (l : List Char) : List (List Char) := kw2Aux l

/-- Embedding of findall for the third keyword pattern: a whitespace anchor
    (start of text or a whitespace character, which is consumed), a
    whitespace-free word containing a lexicon entry, and the following
    whitespace or end of text, also consumed.  some acc means the current
    word started at a satisfied anchor and acc is the word so far; none means
    the scan is looking for the next whitespace anchor (in particular the
    word right after a successful match is never anchored, because the match
    consumed the separating whitespace). -/
def kw3Aux : Option (List Char) → List Char → List (List Char)
  | none, [] => []
  | none, c :: rest =>
    if isPySpace c then kw3Aux (some []) rest else kw3Aux none rest
  | some acc, [] => if containsKwB acc then [acc] else []
  | some acc, c :: rest =>
    if isPySpace c then
      if containsKwB acc then acc :: kw3Aux none rest
      else kw3Aux (some []) rest
    else kw3Aux (some (acc ++ [c])) rest

/-- Findall for the third keyword pattern; position zero is anchored. -/
def findallKw3 (l : List Char) : List (List Char) := kw3Aux (some []) l

/-- Embedding of extract_keywords (crawler.py 193-204): all matches of the
    three patterns in order, tag-stripped and trimmed, kept when longer than
    two characters, collected into a set. -/
def extractKeywords (context : List Char) : List (List Char) :=
  (findallKw1 context ++ findallKw2 context ++ findallKw3 context).foldl
    (fun s m =>
      let ck := pyStrip (stripTags m)
      if !(ck.isEmpty) && ck.length > 2 then addToSet ck s else s) []

/-! ### Fetcher: fetch_url_content (crawler.py 113-144) and the backup
    get_page_content (crawler_backup.py 131-156).  The network interaction is
    modelled by the outcome of the requests call: either some stage up to
    raise_for_status raised, or a body of raw bytes arrived.  The codec layer
    is modelled by an environment of decoding functions. -/

/-- Outcome of session.get plus response.raise_for_status for one URL:
    raisedDuringGet covers timeouts, connection errors and malformed
    responses raised by the requests library, httpErrorStatus covers the
    exception raised by raise_for_status on an HTTP error status, and ok
    carries the raw body bytes. -/
inductive HttpOutcome where
  | raisedDuringGet : HttpOutcome
  | httpErrorStatus : HttpOutcome
  | ok (body : List Nat) : HttpOutcome

/-- Codec environment for fetch_url_content: the encoding name produced by
    detect_encoding (which already falls back to utf-8 internally), strict
    decoding by encoding name (none models UnicodeDecodeError), and the
    always-successful permissive decode with errors=ignore. -/
structure DecodeEnv where
  detectEncoding : List Nat → List Char
  decode : List Char → List Nat → Option (List Char)
  decodeIgnore : List Nat → List Char

/-- Embedding of fetch_url_content (crawler.py 113-144): any raised stage is
    caught by the enclosing except and yields None; a body is decoded with
    the detected encoding, then the backup encodings utf-8, gbk, gb2312,
    latin1 in order, then permissively, so a body always yields text.  No
    size check appears anywhere in this function. -/
def fetchUrlContent (env : DecodeEnv) (resp : HttpOutcome) : Option (List Char) :=
  match resp with
  | .raisedDuringGet => none
  | .httpErrorStatus => none
  | .ok raw =>
    let enc := env.detectEncoding raw
    match env.decode enc raw with
    | some content => some content
    | none =>
      match env.decode "utf-8".toList raw with
      | some content => some content
      | none =>
        match env.decode "gbk".toList raw with
        | some content => some content
        | none =>
          match env.decode "gb2312".toList raw with
          | some content => some content
          | none =>
            match env.decode "latin1".toList raw with
            | some content => some content
            | none => some (env.decodeIgnore raw)

/-- Text environment for the backup fetcher: the text the requests library
    renders for a body after the chardet confidence-based encoding fix of
    get_page_content (crawler_backup.py 143-148). -/
structure TextEnv where
  text : List Nat → List Char

/-- Embedding of get_page_content (crawler_backup.py 131-156): any raised
    stage yields None, a body longer than 5 MB is rejected with None
    (crawler_backup.py 139-140), and otherwise the rendered text is
    returned. -/
def getPageContent (env : TextEnv) (resp : HttpOutcome) : Option (List Char) :=
  match resp with
  | .raisedDuringGet => none
  | .httpErrorStatus => none
  | .ok raw =>
    if 5 * 1024 * 1024 < raw.length then none
    else some (env.text raw)

/-! ### Extractor and per-page parse: extract_data_with_beautifulsoup
    (crawler.py 146-176), extract_period_context (crawler.py 178-191) and
    parse_single_period (crawler.py 251-279).  The BeautifulSoup library call
    is modelled by its result: soupText is the text soup.get_text() returns
    after script and style tags are decomposed, or none when the library
    raised, in which case the except branch returns no contexts. -/

/-- Embedding of extract_data_with_beautifulsoup (crawler.py 146-176): split
    the library-produced text into lines, strip each and keep the non-empty
    ones, and around every line containing the period marker join the block
    of three lines of context on each side. -/
def extractDataWithBeautifulsoup (soupText : Option (List Char))
    (targetPeriod : List Char) : List (List Char) :=
  match soupText with
  | none => []
  | some txt =>
    let lines := ((splitOnNl txt).map pyStrip).filter (fun ln => !ln.isEmpty)
    let marker := targetPeriod ++ ['期']
    lines.enum.filterMap (fun p =>
      if isSubstrB marker p.2 then
        some (List.intercalate ['\n']
          ((lines.drop (p.1 - 3)).take (min lines.length (p.1 + 4) - (p.1 - 3))))
      else none)

/-- Embedding of extract_period_context (crawler.py 178-191): the plain
    fallback on the raw text, with five lines of context on each side and no
    stripping or filtering of lines. -/
def extractPeriodContext (text : List Char) (targetPeriod : List Char) :
    List (List Char) :=
  let lines := splitOnNl text
  let marker := targetPeriod ++ ['期']
  lines.enum.filterMap (fun p =>
    if isSubstrB marker p.2 then
      some (List.intercalate ['\n']
        ((lines.drop (p.1 - 5)).take (min lines.length (p.1 + 6) - (p.1 - 5))))
    else none)

/-- One output row of parse_single_period (crawler.py 271-276): the four
    comma-joined string fields of the data dict. -/
structure RecordRow where
  period : List Char
  keywords : List Char
  colors : List Char
  results : List Char
deriving Repr, DecidableEq

/-- Python str.flatten with the separator comma-space used for every field. -/
def joinCS (ws : List (List Char)) : List Char := List.intercalate [',', ' '] ws

/-- Embedding of the data dict built for one accepted context
    (crawler.py 271-276). -/
def mkRecordRow (targetPeriod : List Char) (context : List Char) : RecordRow :=
  let colors := extractColors context
  let results := extractResults context
  { period := targetPeriod ++ ['期']
    keywords := joinCS (extractKeywords context)
    colors := if colors.isEmpty then [] else joinCS colors
    results := if results.isEmpty then [] else joinCS results }

/-- Embedding of the context loop of parse_single_period (crawler.py
    264-277): each context is parsed, gated by is_valid_content, and appended
    to all_data when accepted. -/
def parseContexts (targetPeriod : List Char) : List (List Char) → List RecordRow
  | [] => []
  | context :: rest =>
    if isValidContent context (extractKeywords context) (extractColors context)
    then mkRecordRow targetPeriod context :: parseContexts targetPeriod rest
    else parseContexts targetPeriod rest

/-- Embedding of parse_single_period (crawler.py 251-279): the BeautifulSoup
    strategy is preferred when it produced any context, otherwise the regex
    fallback (which always returns a list, so the final `or []` keeps it). -/
def parseSinglePeriod (soupText : Option (List Char)) (htmlText : List Char)
    (targetPeriod : List Char) : List RecordRow :=
  let bs := extractDataWithBeautifulsoup soupText targetPeriod
  let rx := extractPeriodContext htmlText targetPeriod
  let contexts := if !bs.isEmpty then bs else rx
  parseContexts targetPeriod contexts

/-! ### Predicates taken from the wording of the specification, used to state
    the refinement claims about the Quality Gate. -/

/-- Spec wording: the lowercased window contains no entry of the advertising
    lexicon. -/
def specNoAdHit (context : List Char) : Prop :=
  ∀ w ∈ adKeywords, isSubstrB w (pyLower context) = false

/-- Spec wording: the window contains no run of six or more identical
    non-space characters in direct succession. -/
def specNoSixRun (context : List Char) : Prop :=
  ¬ ∃ pre c suf, c ≠ ' ' ∧ context = pre ++ List.replicate 6 c ++ suf

/-- Spec wording of the full Quality Gate: non-empty keyword set, no
    advertising hit, trimmed length at least 20, no six-run. -/
def specQualityGate (context : List Char) (keywords : List (List Char)) : Prop :=
  keywords ≠ [] ∧ specNoAdHit context ∧ 20 ≤ (pyStrip context).length ∧
    specNoSixRun context

theorem makeBatches_nil {α : Type} (B : Nat) : makeBatches B ([] : List α) = [] := by
  rw [makeBatches]
  simp

theorem makeBatches_cons {α : Type} (B : Nat) (l : List α) (hl : l ≠ []) (hB : B ≠ 0) :
    makeBatches B l = l.take B :: makeBatches B (l.drop B) := by
  rw [makeBatches]
  simp [List.isEmpty_iff, hl, hB]

theorem saveResults_empty {α : Type} (incremental : Bool) (file : Option (Nat × List α)) :
    saveResults incremental ⟨[], file⟩ = ⟨[], file⟩ := by
  simp [saveResults]

theorem saveResults_true_append {α : Type} (hdr : Nat) (rows buf : List α) (hbuf : buf ≠ []) :
    saveResults true ⟨buf, some (hdr, rows)⟩ = ⟨[], some (hdr, rows ++ buf)⟩ := by
  simp [saveResults, List.isEmpty_iff, hbuf]

theorem saveResults_true_create {α : Type} (buf : List α) (hbuf : buf ≠ []) :
    saveResults true ⟨buf, none⟩ = ⟨[], some (1, buf)⟩ := by
  simp [saveResults, List.isEmpty_iff, hbuf]

theorem foldl_batchStep_some {α : Type} :
    ∀ (bs : List (List α)) (hdr : Nat) (rows : List α),
      bs.foldl batchStep ⟨[], some (hdr, rows)⟩ = ⟨[], some (hdr, rows ++ bs.flatten)⟩ := by
  intro bs
  induction bs with
  | nil => intro hdr rows; simp
  | cons b rest ih =>
    intro hdr rows
    by_cases hb : b = []
    · subst hb
      simp only [List.foldl_cons, batchStep, List.nil_append, List.isEmpty_nil]
      simp [ih]
    · simp only [List.foldl_cons, batchStep, List.nil_append]
      rw [if_neg (by simp [List.isEmpty_iff, hb])]
      rw [saveResults_true_append _ _ _ hb, ih]
      simp

theorem foldl_batchStep_none {α : Type} :
    ∀ (bs : List (List α)),
      bs.foldl batchStep (⟨[], none⟩ : SinkState α) =
        if bs.flatten.isEmpty then ⟨[], none⟩ else ⟨[], some (1, bs.flatten)⟩ := by
  intro bs
  induction bs with
  | nil => simp
  | cons b rest ih =>
    by_cases hb : b = []
    · subst hb
      simp only [List.foldl_cons, batchStep, List.nil_append, List.isEmpty_nil]
      simpa using ih
    · simp only [List.foldl_cons, batchStep, List.nil_append]
      rw [if_neg (by simp [List.isEmpty_iff, hb])]
      rw [saveResults_true_create _ hb, foldl_batchStep_some]
      rw [if_neg (by simp [List.isEmpty_iff, hb])]
      simp

/-- C1.  In one run, after K incremental flushes of the non-empty batch
    buffers and the final flush of whatever remains buffered, the output file
    holds exactly one header row and exactly the N records ever buffered, in
    order, with nothing lost: starting from no output file, the flush
    schedule of run produces the file some (1, all records) with an empty
    buffer (the final flush finds the buffer empty and leaves the file
    untouched rather than rewriting it), and each incremental flush onto an
    existing file appends the buffer without adding any header row. -/
theorem c1_append_durability {α : Type} (batches : List (List α))
    (hne : batches.flatten ≠ []) :
    runFlushes batches (⟨[], none⟩ : SinkState α) = ⟨[], some (1, batches.flatten)⟩
    ∧ ∀ (hdr : Nat) (rows buf : List α), buf ≠ [] →
        saveResults true ⟨buf, some (hdr, rows)⟩ = ⟨[], some (hdr, rows ++ buf)⟩ := by
  constructor
  · unfold runFlushes
    rw [foldl_batchStep_none, if_neg (by simp [List.isEmpty_iff, hne]), saveResults_empty]
  · intro hdr rows buf hbuf
    exact saveResults_true_append hdr rows buf hbuf

/-- Witness for C1 at a concrete two-batch run. -/
theorem c1_append_durability_witness :
    runFlushes [[1, 2], [], [3]] (⟨[], none⟩ : SinkState Nat) = ⟨[], some (1, [1, 2, 3])⟩
    ∧ saveResults true (⟨[9], some (1, [1, 2, 3])⟩ : SinkState Nat) = ⟨[], some (1, [1, 2, 3, 9])⟩ := by
  have h := c1_append_durability (α := Nat) [[1, 2], [], [3]] (by decide)
  exact ⟨by simpa using h.1, h.2 1 [1, 2, 3] [9] (by decide)⟩

/-- C2.  An incremental flush is atomic for the buffer: when the append
    raises, the buffer is returned unchanged with no record dropped, and the
    buffer ends up cleared only in executions where the append completed (or
    where there was nothing to flush in the first place). -/
theorem c2_flush_atomic_on_error {α : Type} (st : SinkState α)
    (fileOnFail : Option (Nat × List α)) :
    (saveResultsAttempt true false fileOnFail st).buffer = st.buffer
    ∧ ∀ writeOk : Bool,
        (saveResultsAttempt true writeOk fileOnFail st).buffer = [] →
          st.buffer = [] ∨ writeOk = true := by
  constructor
  · by_cases hb : st.buffer = []
    · simp [saveResultsAttempt, List.isEmpty_iff, hb]
    · simp [saveResultsAttempt, List.isEmpty_iff, hb]
  · intro writeOk hclr
    cases writeOk with
    | true => exact Or.inr rfl
    | false =>
      left
      by_cases hb : st.buffer = []
      · exact hb
      · rw [show (saveResultsAttempt true false fileOnFail st).buffer = st.buffer from ?_] at hclr
        · exact hclr
        · simp [saveResultsAttempt, List.isEmpty_iff, hb]

/-- Witness for C2 at a concrete failing flush. -/
theorem c2_flush_atomic_on_error_witness :
    (saveResultsAttempt true false none (⟨[1, 2], some (1, [3])⟩ : SinkState Nat)).buffer = [1, 2]
    ∧ (([1, 2] : List Nat) = [] ∨ true = true) := by
  have h := c2_flush_atomic_on_error (⟨[1, 2], some (1, [3])⟩ : SinkState Nat) none
  exact ⟨h.1, h.2 true (by decide)⟩

theorem makeBatches_flatten {α : Type} (B : Nat) (hB : B ≠ 0) (l : List α) :
    (makeBatches B l).flatten = l := by
  generalize hn : l.length = n
  induction n using Nat.strong_induction_on generalizing l with
  | _ n ih =>
    subst hn
    by_cases hl : l = []
    · subst hl; simp [makeBatches_nil]
    · rw [makeBatches_cons B l hl hB]
      simp only [List.flatten_cons]
      rw [ih (l.drop B).length ?_ (l.drop B) rfl]
      · exact List.take_append_drop B l
      · have h0 : 0 < l.length := List.length_pos.mpr hl
        simp only [List.length_drop]
        omega

theorem makeBatches_length_eq {α : Type} (B : Nat) (hB : B ≠ 0) (l : List α) :
    (makeBatches B l).length = (l.length + B - 1) / B := by
  generalize hn : l.length = n
  induction n using Nat.strong_induction_on generalizing l with
  | _ n ih =>
    subst hn
    by_cases hl : l = []
    · subst hl
      rw [makeBatches_nil]
      simp only [List.length_nil]
      have hdiv : (0 + B - 1) / B = 0 := Nat.div_eq_of_lt (by omega)
      rw [hdiv]
    · have h0 : 0 < l.length := List.length_pos.mpr hl
      rw [makeBatches_cons B l hl hB]
      simp only [List.length_cons]
      rw [ih (l.drop B).length (by simp only [List.length_drop]; omega)
        (l.drop B) rfl]
      simp only [List.length_drop]
      by_cases hlen : l.length ≤ B
      · have hz : l.length - B = 0 := by omega
        rw [hz]
        have hleft : (l.length + B - 1) / B = 1 := by
          have hy : l.length + B - 1 = B * 1 + (l.length - 1) := by omega
          rw [hy, Nat.mul_add_div (Nat.pos_of_ne_zero hB), Nat.div_eq_of_lt (by omega)]
        have hright : (0 + B - 1) / B = 0 := Nat.div_eq_of_lt (by omega)
        omega
      · have heq : l.length + B - 1 = (l.length - B + B - 1) + B := by omega
        rw [heq, Nat.add_div_right _ (Nat.pos_of_ne_zero hB)]

theorem makeBatches_dropLast_length {α : Type} (B : Nat) (hB : B ≠ 0) (l : List α) :
    ∀ b ∈ (makeBatches B l).dropLast, b.length = B := by
  generalize hn : l.length = n
  induction n using Nat.strong_induction_on generalizing l with
  | _ n ih =>
    subst hn
    by_cases hl : l = []
    · subst hl; simp [makeBatches_nil]
    · have h0 : 0 < l.length := List.length_pos.mpr hl
      rw [makeBatches_cons B l hl hB]
      by_cases hd : l.drop B = []
      · rw [hd, makeBatches_nil]
        simp
      · have hne : makeBatches B (l.drop B) ≠ [] := by
          rw [makeBatches_cons B _ hd hB]
          simp
        rw [List.dropLast_cons_of_ne_nil hne]
        intro b hb
        rcases List.mem_cons.mp hb with hb1 | hb2
        · subst hb1
          have hBlt : B ≤ l.length := by
            by_contra hc
            exact hd (List.drop_eq_nil_of_le (by omega))
          simp [List.length_take]
          omega
        · exact ih (l.drop B).length (by simp only [List.length_drop]; omega)
            (l.drop B) rfl b hb2

theorem makeBatches_getLast_length {α : Type} (B : Nat) (hB : B ≠ 0) (l : List α)
    (hl : l ≠ []) (hnd : ¬ B ∣ l.length) :
    ((makeBatches B l).getLast?).map List.length = some (l.length % B) := by
  generalize hn : l.length = n
  induction n using Nat.strong_induction_on generalizing l with
  | _ n ih =>
    subst hn
    have h0 : 0 < l.length := List.length_pos.mpr hl
    rw [makeBatches_cons B l hl hB]
    by_cases hd : l.drop B = []
    · have hlen : l.length ≤ B := by
        by_contra hc
        have := congrArg List.length hd
        simp only [List.length_drop, List.length_nil] at this
        omega
      have hlt : l.length < B := by
        rcases Nat.lt_or_ge l.length B with h | h
        · exact h
        · exfalso
          have : l.length = B := by omega
          exact hnd (this ▸ dvd_refl B)
      rw [hd, makeBatches_nil]
      simp only [List.getLast?_singleton, Option.map_some', List.length_take,
        Nat.mod_eq_of_lt hlt]
      congr 1
      omega
    · have hBle : B ≤ l.length := by
        by_contra hc
        exact hd (List.drop_eq_nil_of_le (by omega))
      have hne : makeBatches B (l.drop B) ≠ [] := by
        rw [makeBatches_cons B _ hd hB]
        simp
      rcases List.exists_cons_of_ne_nil hne with ⟨y, ys, hys⟩
      rw [hys, List.getLast?_cons_cons, ← hys]
      have hnd2 : ¬ B ∣ (l.drop B).length := by
        simp only [List.length_drop]
        intro hdvd
        apply hnd
        have := Nat.dvd_add hdvd (dvd_refl B)
        rwa [Nat.sub_add_cancel hBle] at this
      rw [ih (l.drop B).length (by simp only [List.length_drop]; omega)
        (l.drop B) hd hnd2 rfl]
      simp only [List.length_drop]
      congr 1
      conv_rhs => rw [Nat.mod_eq_sub_mod hBle]

/-- C8.  The Scheduler partitions the URL list of length N into exactly
    ceil(N/B) batches, in order; concatenating the batches gives back the
    list (every URL in exactly one batch, order preserved); every batch
    except possibly the last has exactly B URLs; when B does not divide N the
    last batch has N mod B URLs; and 120 URLs with batch size 50 give exactly
    the three batch sizes 50, 50, 20, each batch being followed by one
    incremental flush opportunity in the run loop (batchStep). -/
theorem c8_batch_partition {α : Type} (urls : List α) (B : Nat) (hB : 0 < B) :
    (makeBatches B urls).length = (urls.length + B - 1) / B
    ∧ (makeBatches B urls).flatten = urls
    ∧ (∀ b ∈ (makeBatches B urls).dropLast, b.length = B)
    ∧ (urls ≠ [] → ¬ B ∣ urls.length →
        ((makeBatches B urls).getLast?).map List.length = some (urls.length % B))
    ∧ (urls.length = 120 → B = 50 →
        (makeBatches B urls).map List.length = [50, 50, 20]) := by
  have hB0 : B ≠ 0 := Nat.pos_iff_ne_zero.mp hB
  refine ⟨makeBatches_length_eq B hB0 urls, makeBatches_flatten B hB0 urls,
    makeBatches_dropLast_length B hB0 urls,
    fun hl hnd => makeBatches_getLast_length B hB0 urls hl hnd, ?_⟩
  intro hlen hB50
  subst hB50
  have h1 : urls ≠ [] := by
    intro h
    rw [h] at hlen
    simp at hlen
  rw [makeBatches_cons _ _ h1 (by decide)]
  have hd1 : urls.drop 50 ≠ [] := by
    intro h
    have := congrArg List.length h
    simp [hlen] at this
  rw [makeBatches_cons _ _ hd1 (by decide)]
  have hd2 : (urls.drop 50).drop 50 ≠ [] := by
    intro h
    have := congrArg List.length h
    simp [hlen] at this
  rw [makeBatches_cons _ _ hd2 (by decide)]
  have hd3 : ((urls.drop 50).drop 50).drop 50 = [] := by
    apply List.eq_nil_of_length_eq_zero
    simp [hlen]
  rw [hd3, makeBatches_nil]
  simp [List.length_take, List.length_drop, hlen]

/-- Witness for C8 at batch size 3 over seven URLs. -/
theorem c8_batch_partition_witness :
    (makeBatches 3 [0, 1, 2, 3, 4, 5, 6]).length = (7 + 3 - 1) / 3
    ∧ (makeBatches 3 [0, 1, 2, 3, 4, 5, 6]).flatten = [0, 1, 2, 3, 4, 5, 6]
    ∧ ((makeBatches 3 [0, 1, 2, 3, 4, 5, 6]).getLast?).map List.length = some (7 % 3) := by
  have h := c8_batch_partition [0, 1, 2, 3, 4, 5, 6] 3 (by decide)
  exact ⟨h.1, h.2.1, h.2.2.2.1 (by decide) (by decide)⟩

/-- C9.  Flushing an empty buffer, incrementally or at end of run, is a
    no-op: nothing is appended, no header row is written or duplicated, and
    the file part of the state is returned exactly as it was. -/
theorem c9_empty_flush_noop {α : Type} (incremental : Bool)
    (file : Option (Nat × List α)) :
    saveResults incremental ⟨[], file⟩ = ⟨[], file⟩ :=
  saveResults_empty incremental file

/-! ### C4 helper lemmas: every color-pattern match normalizes to a canonical
    full-color form, and the accumulated set stays duplicate-free inside the
    three canonical forms. -/

theorem mem_findallColor1 (l : List Char) :
    ∀ m ∈ findallColor1 l, ∃ c, colorChar c = true ∧ m = [c, '波'] := by
  induction l using findallColor1.induct with
  | case1 c b rest hg ih =>
    intro m hm
    rw [findallColor1] at hm
    simp only [if_pos hg, List.mem_cons] at hm
    rcases hm with hm | hm
    · exact ⟨c, by simp_all, hm⟩
    · exact ih m hm
  | case2 c b rest hg ih =>
    intro m hm
    rw [findallColor1] at hm
    simp only [if_neg hg] at hm
    exact ih m hm
  | case3 t ht =>
    intro m hm
    match t, ht with
    | [], _ => simp [findallColor1] at hm
    | [c], _ => simp [findallColor1] at hm
    | c :: b :: rest, ht => exact absurd rfl (ht c b rest)

theorem mem_findallColor2 (l : List Char) :
    ∀ m ∈ findallColor2 l, ∃ c, colorChar c = true ∧ m = [c] := by
  induction l using findallColor2.induct with
  | case1 c b rest hg ih =>
    intro m hm
    rw [findallColor2] at hm
    simp only [if_pos hg, List.mem_cons] at hm
    rcases hm with hm | hm
    · exact ⟨c, by simp_all, hm⟩
    · exact ih m hm
  | case2 c b rest hg ih =>
    intro m hm
    rw [findallColor2] at hm
    simp only [if_neg hg] at hm
    exact ih m hm
  | case3 t ht =>
    intro m hm
    match t, ht with
    | [], _ => simp [findallColor2] at hm
    | [c], _ => simp [findallColor2] at hm
    | c :: b :: rest, ht => exact absurd rfl (ht c b rest)

theorem mem_findallColor3Aux (armed : Bool) (l : List Char) :
    ∀ m ∈ findallColor3Aux armed l, ∃ c, colorChar c = true ∧ m = [c, '波'] := by
  induction armed, l using findallColor3Aux.induct with
  | case1 a b rest hg ih =>
    intro m hm
    rw [findallColor3Aux] at hm
    simp only [if_pos hg] at hm
    exact ih m hm
  | case2 a b rest hg ih =>
    intro m hm
    rw [findallColor3Aux] at hm
    simp only [if_neg hg] at hm
    exact ih m hm
  | case3 t ht =>
    intro m hm
    match t, ht with
    | [], _ => simp [findallColor3Aux] at hm
    | [c], _ => simp [findallColor3Aux] at hm
    | c :: b :: rest, ht => exact absurd rfl (ht c b rest)
  | case4 c b rest2 hg ih =>
    intro m hm
    rw [findallColor3Aux] at hm
    simp only [if_pos hg, List.mem_cons] at hm
    rcases hm with hm | hm
    · exact ⟨c, by simp_all, hm⟩
    · exact ih m hm
  | case5 c b rest2 hg hnl ih =>
    intro m hm
    rw [findallColor3Aux] at hm
    simp only [if_neg hg, if_pos hnl] at hm
    exact ih m hm
  | case6 c b rest2 hg hnl ih =>
    intro m hm
    rw [findallColor3Aux] at hm
    simp only [if_neg hg, if_neg hnl] at hm
    exact ih m hm
  | case7 t ht =>
    intro m hm
    match t, ht with
    | [], _ => simp [findallColor3Aux] at hm
    | [c], _ => simp [findallColor3Aux] at hm
    | c :: b :: rest, ht => exact absurd rfl (ht c b rest)

/-- The three canonical full-color forms. -/
def canonicalColors : List (List Char) := [['红', '波'], ['绿', '波'], ['蓝', '波']]

theorem normWave_color_wave {c : Char} (hc : colorChar c = true) :
    normWave [c, '波'] ∈ canonicalColors := by
  simp only [colorChar, Bool.or_eq_true, beq_iff_eq] at hc
  rcases hc with (h | h) | h <;> subst h <;> decide

theorem normWave_color_char {c : Char} (hc : colorChar c = true) :
    normWave [c] ∈ canonicalColors := by
  simp only [colorChar, Bool.or_eq_true, beq_iff_eq] at hc
  rcases hc with (h | h) | h <;> subst h <;> decide

/-- The set invariant of extract_colors: duplicate-free and inside the three
    canonical forms. -/
def colorSetInv (s : List (List Char)) : Prop :=
  s.Nodup ∧ ∀ x ∈ s, x ∈ canonicalColors

theorem colorSetInv_addToSet {s : List (List Char)} {x : List Char}
    (hs : colorSetInv s) (hx : x ∈ canonicalColors) : colorSetInv (addToSet x s) := by
  unfold addToSet
  by_cases hmem : x ∈ s
  · simpa [hmem] using hs
  · rw [if_neg hmem]
    constructor
    · simp [List.nodup_append, hs.1, hmem]
    · intro y hy
      rcases List.mem_append.mp hy with hy | hy
      · exact hs.2 y hy
      · simp only [List.mem_singleton] at hy
        subst hy
        exact hx

theorem colorSetInv_foldl_norm {ms : List (List Char)}
    (hms : ∀ m ∈ ms, normWave m ∈ canonicalColors) :
    ∀ s, colorSetInv s → colorSetInv (ms.foldl (fun s m => addToSet (normWave m) s) s) := by
  induction ms with
  | nil => intro s hs; simpa using hs
  | cons m rest ih =>
    intro s hs
    simp only [List.foldl_cons]
    exact ih (fun x hx => hms x (List.mem_cons_of_mem m hx))
      _ (colorSetInv_addToSet hs (hms m (List.mem_cons_self m rest)))

theorem colorMap_canonical {ch : Char} {full : List Char}
    (h : colorMap ch = some full) : full ∈ canonicalColors := by
  unfold colorMap at h
  by_cases h1 : (ch == '红') = true
  · rw [if_pos h1] at h; cases h; decide
  · rw [if_neg h1] at h
    by_cases h2 : (ch == '绿') = true
    · rw [if_pos h2] at h; cases h; decide
    · rw [if_neg h2] at h
      by_cases h3 : (ch == '蓝') = true
      · rw [if_pos h3] at h; cases h; decide
      · rw [if_neg h3] at h; cases h

theorem colorSetInv_charFold (chs : List Char) :
    ∀ (p : List (List Char) × List Char), colorSetInv p.1 →
      colorSetInv ((chs.foldl
        (fun (p : List (List Char) × List Char) ch =>
          match colorMap ch with
          | some full => if p.2.contains ch then p else (addToSet full p.1, p.2 ++ [ch])
          | none => p) p)).1 := by
  induction chs with
  | nil => intro p hp; simpa using hp
  | cons ch rest ih =>
    intro p hp
    simp only [List.foldl_cons]
    apply ih
    cases hcm : colorMap ch with
    | none => simpa [hcm] using hp
    | some full =>
      simp only [hcm]
      split
      · simpa using hp
      · simpa using colorSetInv_addToSet hp (colorMap_canonical hcm)

theorem extractColorsSet_inv (context : List Char) :
    colorSetInv (extractColorsSet context) := by
  unfold extractColorsSet
  apply colorSetInv_charFold
  apply colorSetInv_foldl_norm
  · intro m hm
    rcases mem_findallColor3Aux false context m hm with ⟨c, hc, hm3⟩
    subst hm3
    exact normWave_color_wave hc
  apply colorSetInv_foldl_norm
  · intro m hm
    rcases mem_findallColor2 context m hm with ⟨c, hc, hm2⟩
    subst hm2
    exact normWave_color_char hc
  apply colorSetInv_foldl_norm
  · intro m hm
    rcases mem_findallColor1 context m hm with ⟨c, hc, hm1⟩
    subst hm1
    exact normWave_color_wave hc
  exact ⟨List.nodup_nil, by simp⟩

/-- C4.  For every context window the color set extract_colors returns has at
    most 3 elements, every element is one of the three canonical full-color
    forms, and the final cap list(colors)[:3] discards nothing: the capped
    list equals the whole accumulated set. -/
theorem c4_colors_canonical_capped (context : List Char) :
    (extractColors context).length ≤ 3
    ∧ (∀ x ∈ extractColors context, x ∈ canonicalColors)
    ∧ extractColors context = extractColorsSet context := by
  have hinv := extractColorsSet_inv context
  have hlen : (extractColorsSet context).length ≤ 3 := by
    have hsub : extractColorsSet context ⊆ canonicalColors := fun x hx => hinv.2 x hx
    have := (hinv.1.subperm hsub).length_le
    simpa [canonicalColors] using this
  have heq : extractColors context = extractColorsSet context :=
    List.take_of_length_le hlen
  refine ⟨?_, ?_, heq⟩
  · rw [heq]; exact hlen
  · intro x hx
    rw [heq] at hx
    exact hinv.2 x hx

/-- Witness for C4 at a concrete window holding all three colors. -/
theorem c4_colors_canonical_capped_witness :
    (extractColors "推荐红波 蓝波 【绿】".toList).length ≤ 3
    ∧ "红波".toList ∈ canonicalColors :=
  ⟨(c4_colors_canonical_capped "推荐红波 蓝波 【绿】".toList).1,
    (c4_colors_canonical_capped "推荐红波 蓝波 【绿】".toList).2.1 "红波".toList (by decide)⟩

/-! ### C3 helper lemmas: the repetition scan agrees with the existential
    six-run description, and the advertising loop with the universal
    no-entry-matches description. -/

theorem hasSixRun_cons (x : Char) (t : List Char) (h : hasSixRun t = true) :
    hasSixRun (x :: t) = true := by
  match t with
  | [] => simp [hasSixRun] at h
  | [a] => simp [hasSixRun] at h
  | [a, b] => simp [hasSixRun] at h
  | [a, b, c] => simp [hasSixRun] at h
  | [a, b, c, d] => simp [hasSixRun] at h
  | a :: b :: c :: d :: e :: rest =>
    rw [hasSixRun]
    rw [h]
    simp

theorem hasSixRun_iff (l : List Char) :
    hasSixRun l = true ↔ ∃ pre c suf, c ≠ ' ' ∧ l = pre ++ List.replicate 6 c ++ suf := by
  constructor
  · induction l using hasSixRun.induct with
    | case1 a b c d e f rest ih =>
      intro h
      rw [hasSixRun] at h
      simp only [Bool.or_eq_true] at h
      rcases h with h | h
      · simp only [Bool.and_eq_true, bne_iff_ne, ne_eq, beq_iff_eq] at h
        obtain ⟨⟨⟨⟨⟨ha, hb⟩, hc⟩, hd⟩, he⟩, hf⟩ := h
        refine ⟨[], a, rest, ha, ?_⟩
        rw [hb, hc, hd, he, hf]
        simp [List.replicate_succ]
      · rcases ih h with ⟨pre, c0, suf, hc0, heq⟩
        exact ⟨a :: pre, c0, suf, hc0, by simp [heq]⟩
    | case2 t ht =>
      intro h
      match t, ht with
      | [], _ => simp [hasSixRun] at h
      | [a], _ => simp [hasSixRun] at h
      | [a, b], _ => simp [hasSixRun] at h
      | [a, b, c], _ => simp [hasSixRun] at h
      | [a, b, c, d], _ => simp [hasSixRun] at h
      | [a, b, c, d, e], _ => simp [hasSixRun] at h
      | a :: b :: c :: d :: e :: f :: rest, ht => exact absurd rfl (ht a b c d e f rest)
  · rintro ⟨pre, c0, suf, hc0, rfl⟩
    induction pre with
    | nil =>
      rw [List.nil_append,
        show List.replicate 6 c0 ++ suf = c0 :: c0 :: c0 :: c0 :: c0 :: c0 :: suf from by
          simp [List.replicate_succ]]
      rw [hasSixRun]
      simp [hc0]
    | cons p pre ih =>
      rw [List.cons_append]
      exact hasSixRun_cons p _ ih

theorem pyStrip_length_le (l : List Char) : (pyStrip l).length ≤ l.length := by
  unfold pyStrip
  have h1 : (l.dropWhile isPySpace).length ≤ l.length :=
    (List.dropWhile_suffix _).sublist.length_le
  have h2 : ((l.dropWhile isPySpace).reverse.dropWhile isPySpace).length ≤
      (l.dropWhile isPySpace).reverse.length :=
    (List.dropWhile_suffix _).sublist.length_le
  simp only [List.length_reverse] at *
  omega

theorem containsAd_eq_false_iff (context : List Char) :
    containsAd context = false ↔ specNoAdHit context := by
  unfold containsAd specNoAdHit
  rw [List.any_eq_false]
  constructor
  · intro h w hw
    have := h w hw
    simpa using this
  · intro h w hw
    simp [h w hw]

theorem hasExcessiveRepetition_false_iff {l : List Char} (hlen : 10 ≤ l.length) :
    hasExcessiveRepetition l = false ↔ specNoSixRun l := by
  unfold hasExcessiveRepetition specNoSixRun
  rw [if_neg (by omega)]
  rw [← hasSixRun_iff]
  constructor
  · intro h hc
    rw [h] at hc
    exact Bool.false_ne_true hc
  · intro h
    cases hr : hasSixRun l with
    | false => rfl
    | true => exact absurd hr h

theorem parseContexts_eq_filter_map (targetPeriod : List Char)
    (contexts : List (List Char)) :
    parseContexts targetPeriod contexts =
      (contexts.filter (fun ctx =>
        isValidContent ctx (extractKeywords ctx) (extractColors ctx))).map
        (mkRecordRow targetPeriod) := by
  induction contexts with
  | nil => rfl
  | cons ctx rest ih =>
    rw [parseContexts, List.filter_cons]
    by_cases h : isValidContent ctx (extractKeywords ctx) (extractColors ctx) = true
    · rw [if_pos h, if_pos h, List.map_cons, ih]
    · rw [if_neg h, if_neg h, ih]

/-- C3.  A Record is materialized from a context window exactly when all four
    Quality Gate checks pass: is_valid_content accepts exactly the windows
    whose keyword set is non-empty, whose lowercased text contains no entry
    of the advertising lexicon, whose trimmed length is at least 20, and that
    contain no run of six identical non-space characters; the context loop of
    parse_single_period keeps exactly the accepted windows; and in particular
    a window with an empty extracted keyword set never yields a record,
    whatever its color and result content. -/
theorem c3_gate_characterization (context : List Char)
    (keywords colors : List (List Char)) :
    (isValidContent context keywords colors = true ↔ specQualityGate context keywords)
    ∧ (keywords = [] → isValidContent context keywords colors = false)
    ∧ (∀ (targetPeriod : List Char) (contexts : List (List Char)),
        parseContexts targetPeriod contexts =
          (contexts.filter (fun ctx =>
            isValidContent ctx (extractKeywords ctx) (extractColors ctx))).map
            (mkRecordRow targetPeriod)) := by
  refine ⟨?_, ?_, fun tp cs => parseContexts_eq_filter_map tp cs⟩
  · unfold isValidContent specQualityGate
    by_cases hk : keywords.isEmpty
    · rw [if_pos hk]
      simp only [List.isEmpty_iff] at hk
      simp [hk]
    · rw [if_neg hk]
      simp only [List.isEmpty_iff] at hk
      by_cases had : containsAd context
      · rw [if_pos had]
        constructor
        · intro h
          exact absurd h Bool.false_ne_true
        · rintro ⟨-, hnoad, -, -⟩
          rw [(containsAd_eq_false_iff context).mpr hnoad] at had
          exact absurd had Bool.false_ne_true
      · rw [if_neg had]
        have hnoad : specNoAdHit context :=
          (containsAd_eq_false_iff context).mp (Bool.not_eq_true _ ▸ by simpa using had)
        by_cases hst : (pyStrip context).length < 20
        · rw [if_pos hst]
          constructor
          · intro h
            exact absurd h Bool.false_ne_true
          · rintro ⟨-, -, hlen, -⟩
            omega
        · rw [if_neg hst]
          have h10 : 10 ≤ context.length := by
            have := pyStrip_length_le context
            omega
          by_cases hrep : hasExcessiveRepetition context = true
          · rw [if_pos hrep]
            constructor
            · intro h
              exact absurd h Bool.false_ne_true
            · rintro ⟨-, -, -, hnorun⟩
              rw [(hasExcessiveRepetition_false_iff h10).mpr hnorun] at hrep
              exact absurd hrep Bool.false_ne_true
          · rw [if_neg hrep]
            have hnorun : specNoSixRun context :=
              (hasExcessiveRepetition_false_iff h10).mp (by simpa using hrep)
            simp only [true_iff]
            exact ⟨hk, hnoad, by omega, hnorun⟩
  · intro hke
    subst hke
    simp [isValidContent]

/-- Witness for C3: a window with an empty keyword set is rejected by the
    gate, and the gate accepts a concrete well-formed window. -/
theorem c3_gate_characterization_witness :
    isValidContent "第160期 双波推荐：红波 开：准xxxxx".toList [] [] = false :=
  (c3_gate_characterization "第160期 双波推荐：红波 开：准xxxxx".toList [] []).2.1 rfl

/-! ### C10 helper lemmas: no character lowercases to an uppercase Q, so the
    uppercase lexicon entry QQ can never match a lowercased window. -/

theorem charToNat_ofNat_valid {n : Nat} (h : n.isValidChar) :
    (Char.ofNat n).toNat = n := by
  unfold Char.ofNat
  rw [dif_pos h]
  rfl

theorem pyToLower_ne_Q (c : Char) : pyToLower c ≠ 'Q' := by
  unfold pyToLower
  split
  · rename_i h
    intro hq
    have hval : (Char.ofNat (c.toNat + 32)).toNat = c.toNat + 32 :=
      charToNat_ofNat_valid (Or.inl (by omega))
    have h2 : (Char.ofNat (c.toNat + 32)).toNat = ('Q' : Char).toNat := by rw [hq]
    rw [hval] at h2
    have hQ : ('Q' : Char).toNat = 81 := rfl
    omega
  · rename_i h
    intro hq
    subst hq
    exact h (by constructor <;> decide)

theorem isSubstrB_QQ_pyLower (l : List Char) :
    isSubstrB "QQ".toList (pyLower l) = false := by
  induction l with
  | nil => rfl
  | cons c rest ih =>
    show isSubstrB "QQ".toList (pyToLower c :: pyLower rest) = false
    rw [isSubstrB]
    have hpre : "QQ".toList.isPrefixOf (pyToLower c :: pyLower rest) = false := by
      show (('Q' :: 'Q' :: []).isPrefixOf (pyToLower c :: pyLower rest)) = false
      rw [List.isPrefixOf]
      have : ('Q' == pyToLower c) = false := by
        rw [beq_eq_false_iff_ne]
        exact fun h => pyToLower_ne_Q c h.symm
      rw [this]
      rfl
    rw [hpre, ih]
    rfl

/-- C10.  The advertising check lowercases the window but compares the
    lexicon entries literally, so the uppercase entry QQ can never match any
    lowercased window; a window containing QQ whose lowercased text matches
    no other lexicon entry is therefore not rejected by the advertising
    check. -/
theorem c10_qq_entry_never_matches (context : List Char)
    (h1 : isSubstrB "QQ".toList context = true)
    (h2 : ∀ w ∈ adKeywords, w ≠ "QQ".toList → isSubstrB w (pyLower context) = false) :
    containsAd context = false
    ∧ ∀ l : List Char, isSubstrB "QQ".toList (pyLower l) = false := by
  refine ⟨?_, isSubstrB_QQ_pyLower⟩
  rw [containsAd_eq_false_iff]
  intro w hw
  by_cases hqq : w = "QQ".toList
  · subst hqq
    exact isSubstrB_QQ_pyLower context
  · exact h2 w hw hqq

/-- Witness for C10 at a concrete window containing QQ and no other lexicon
    entry. -/
theorem c10_qq_entry_never_matches_witness :
    containsAd "abQQcd".toList = false :=
  (c10_qq_entry_never_matches "abQQcd".toList (by decide) (by decide)).1

/-! ### C6 helper lemmas: membership in the result set built by the guarded
    fold. -/

theorem mem_addToSet {y x : List Char} {s : List (List Char)}
    (h : y ∈ addToSet x s) : y ∈ s ∨ y = x := by
  unfold addToSet at h
  by_cases hm : x ∈ s
  · rw [if_pos hm] at h
    exact Or.inl h
  · rw [if_neg hm] at h
    rcases List.mem_append.mp h with h | h
    · exact Or.inl h
    · simp only [List.mem_singleton] at h
      exact Or.inr h

theorem mem_results_foldl (ms : List (List Char)) :
    ∀ (s : List (List Char)), (∀ x ∈ s, x ≠ [] ∧ x.length ≤ 10) →
      ∀ x ∈ ms.foldl
        (fun s m =>
          let cr := cleanResult m
          if !(cr.isEmpty) && cr.length ≤ 10 then addToSet cr s else s) s,
        x ≠ [] ∧ x.length ≤ 10 := by
  induction ms with
  | nil => intro s hs x hx; exact hs x hx
  | cons m rest ih =>
    intro s hs x hx
    simp only [List.foldl_cons] at hx
    apply ih _ ?_ x hx
    intro y hy
    by_cases hg : (!(cleanResult m).isEmpty && (cleanResult m).length ≤ 10) = true
    · rw [if_pos hg] at hy
      rcases mem_addToSet hy with hy | hy
      · exact hs y hy
      · subst hy
        simp only [Bool.and_eq_true, Bool.not_eq_true', List.isEmpty_eq_false,
          decide_eq_true_eq] at hg
        exact ⟨hg.1, hg.2⟩
    · rw [if_neg hg] at hy
      exact hs y hy

/-- C6.  Every string in the result set extract_results returns is non-empty
    after markup stripping and trimming and is at most 10 characters long;
    any match whose cleaned form is longer than 10 characters is not added to
    the set. -/
theorem c6_results_nonempty_at_most_ten (context : List Char) :
    ∀ x ∈ extractResults context, x ≠ [] ∧ x.length ≤ 10 := by
  unfold extractResults
  exact mem_results_foldl _ [] (by simp)

/-- Witness for C6: the concrete window with the marker yields the one-glyph
    result string, which is non-empty and within the bound. -/
theorem c6_results_nonempty_at_most_ten_witness :
    "中".toList ≠ [] ∧ ("中".toList).length ≤ 10 :=
  c6_results_nonempty_at_most_ten "开:中".toList "中".toList (by decide)

/-- C7.  The Extractor output used by parse_single_period is exactly the
    BeautifulSoup strategy result when that result is non-empty and exactly
    the plain windowed fallback result otherwise; the two context lists are
    never merged. -/
theorem c7_strategy_preference (soupText : Option (List Char))
    (htmlText targetPeriod : List Char) :
    parseSinglePeriod soupText htmlText targetPeriod =
      parseContexts targetPeriod
        (if (extractDataWithBeautifulsoup soupText targetPeriod).isEmpty
          then extractPeriodContext htmlText targetPeriod
          else extractDataWithBeautifulsoup soupText targetPeriod)
    ∧ (extractDataWithBeautifulsoup soupText targetPeriod ≠ [] →
        parseSinglePeriod soupText htmlText targetPeriod =
          parseContexts targetPeriod (extractDataWithBeautifulsoup soupText targetPeriod))
    ∧ (extractDataWithBeautifulsoup soupText targetPeriod = [] →
        parseSinglePeriod soupText htmlText targetPeriod =
          parseContexts targetPeriod (extractPeriodContext htmlText targetPeriod)) := by
  have hcore : parseSinglePeriod soupText htmlText targetPeriod =
      parseContexts targetPeriod
        (if (extractDataWithBeautifulsoup soupText targetPeriod).isEmpty
          then extractPeriodContext htmlText targetPeriod
          else extractDataWithBeautifulsoup soupText targetPeriod) := by
    unfold parseSinglePeriod
    cases h : (extractDataWithBeautifulsoup soupText targetPeriod).isEmpty <;> simp [h]
  refine ⟨hcore, ?_, ?_⟩
  · intro hne
    rw [hcore, if_neg (by simpa [List.isEmpty_iff] using hne)]
  · intro he
    rw [hcore, if_pos (by simpa [List.isEmpty_iff] using he)]

/-- Witness for C7: a concrete page where the BeautifulSoup strategy finds a
    context, and one where it finds none and the fallback is used. -/
theorem c7_strategy_preference_witness :
    (parseSinglePeriod (some "a160期b".toList) "x".toList "160".toList =
      parseContexts "160".toList
        (extractDataWithBeautifulsoup (some "a160期b".toList) "160".toList))
    ∧ (parseSinglePeriod none "y160期z".toList "160".toList =
        parseContexts "160".toList (extractPeriodContext "y160期z".toList "160".toList)) :=
  ⟨(c7_strategy_preference (some "a160期b".toList) "x".toList "160".toList).2.1 (by decide),
    (c7_strategy_preference none "y160期z".toList "160".toList).2.2 (by decide)⟩

/-! ### C5: the primary fetcher catches every error but has no size ceiling;
    only the backup fetcher enforces the 5 MB limit. -/

theorem fetchUrlContent_ok_isSome (denv : DecodeEnv) (raw : List Nat) :
    (fetchUrlContent denv (HttpOutcome.ok raw)).isSome = true := by
  simp only [fetchUrlContent]
  cases h1 : denv.decode (denv.detectEncoding raw) raw with
  | some c => rfl
  | none =>
    cases h2 : denv.decode "utf-8".toList raw with
    | some c => rfl
    | none =>
      cases h3 : denv.decode "gbk".toList raw with
      | some c => rfl
      | none =>
        cases h4 : denv.decode "gb2312".toList raw with
        | some c => rfl
        | none =>
          cases h5 : denv.decode "latin1".toList raw with
          | some c => rfl
          | none => rfl

/-- C5 counterexample.  The claim says the Fetcher rejects bodies above the
    5 MB ceiling, but fetch_url_content (crawler.py 113-144) has no size
    check: on a body of 5 MB + 1 bytes it returns the decoded page text, not
    the failure value None. -/
theorem c5_no_size_ceiling_counterexample :
    5 * 1024 * 1024 < (List.replicate (5 * 1024 * 1024 + 1) (0 : Nat)).length
    ∧ fetchUrlContent
        ⟨fun _ => "utf-8".toList, fun _ _ => some "x".toList, fun _ => "x".toList⟩
        (HttpOutcome.ok (List.replicate (5 * 1024 * 1024 + 1) 0)) = some "x".toList := by
  constructor
  · rw [List.length_replicate]
    exact Nat.lt_succ_self _
  · rfl

/-- C5 amended.  Both fetchers return None and never propagate an exception
    on any network error, HTTP error status or malformed response, and a body
    always decodes to text through the fallback chain; the 5 MB ceiling is
    enforced only by the backup fetcher get_page_content, which returns None
    for any body above 5 MB, while fetch_url_content imposes no size limit. -/
theorem c5_fetch_failure_amended (denv : DecodeEnv) (tenv : TextEnv) (raw : List Nat) :
    fetchUrlContent denv HttpOutcome.raisedDuringGet = none
    ∧ fetchUrlContent denv HttpOutcome.httpErrorStatus = none
    ∧ (∃ s, fetchUrlContent denv (HttpOutcome.ok raw) = some s)
    ∧ getPageContent tenv HttpOutcome.raisedDuringGet = none
    ∧ getPageContent tenv HttpOutcome.httpErrorStatus = none
    ∧ (5 * 1024 * 1024 < raw.length → getPageContent tenv (HttpOutcome.ok raw) = none) := by
  refine ⟨rfl, rfl, ?_, rfl, rfl, ?_⟩
  · have h := fetchUrlContent_ok_isSome denv raw
    exact Option.isSome_iff_exists.mp h
  · intro h
    simp only [getPageContent]
    rw [if_pos h]

/-- Witness for C5 amended at a concrete oversized body. -/
theorem c5_fetch_failure_amended_witness :
    getPageContent ⟨fun _ => "y".toList⟩
      (HttpOutcome.ok (List.replicate (5 * 1024 * 1024 + 1) 0)) = none :=
  (c5_fetch_failure_amended
    ⟨fun _ => "utf-8".toList, fun _ _ => some "x".toList, fun _ => "x".toList⟩
    ⟨fun _ => "y".toList⟩
    (List.replicate (5 * 1024 * 1024 + 1) 0)).2.2.2.2.2
    (by rw [List.length_replicate]; exact Nat.lt_succ_self _)

end Bose
